import Mathlib

/-!
Verification of the SiteMap-tracker dashboard data transformations.

This file gives a shallow embedding, in Lean, of the data model and the
pure data-transformation functions of the Next.js dashboard
(`dashboard/src/app/page.tsx` and `dashboard/src/components/NodeDetails.tsx`),
together with theorems about them.

Modelling conventions:
* TypeScript strings are `String`, numbers that hold counts are `Nat`,
  `string | null` and optional string fields are `Option String`, and the
  optional boolean `is_new` is a `Bool` (a missing field reads as `false`
  under the truthiness test the code applies to it).
* A JavaScript object used as a string-keyed dictionary is an association
  list in key-insertion order; `Object.entries` enumerates array-index keys
  first in ascending numeric order and then the remaining keys in insertion
  order (ECMA-262 OrdinaryOwnPropertyKeys), which `jsEntries` reproduces.
* `Array.prototype.sort` is required by ECMA-262 to be stable; for a
  consistent comparator the stable sorted output is unique, so it is
  modelled by the stable insertion sort `insertionSort` run with the
  predicate `le a b := comparator a b ≤ 0`.
* `String.prototype.localeCompare` with no arguments uses the default
  collator. `icuCmp` models it for ASCII strings after the ICU root
  collation: the primary comparison is case-insensitive lexicographic, and
  two strings that are equal after case folding are ordered by the first
  character position whose case differs, lowercase before uppercase.
  Under every ECMA-402 default collator (sensitivity `variant`), two
  distinct strings never compare equal, which `icuCmp` also satisfies.
-/

namespace SitemapTracker

/-- One classified URL record, after `dashboard/src/types` `IntentRecord`.
Optional fields that the dashboard code reads are kept; `title` and
`lastmod` may be absent (`Option`), `is_new` defaults to `false`. -/
structure IntentRecord where
  url : String
  path : String
  title : Option String
  action : String
  object : String
  intent_category : String
  lastmod : Option String
  is_new : Bool
deriving DecidableEq

/-- A directory-tree node, after `dashboard/src/types` `DirectoryNode`. -/
inductive DirectoryNode where
  | mk (name : String) (path : String) (count : Nat)
      (children : List DirectoryNode) (records : List IntentRecord)

def DirectoryNode.name : DirectoryNode → String
  | .mk n _ _ _ _ => n

def DirectoryNode.path : DirectoryNode → String
  | .mk _ p _ _ _ => p

def DirectoryNode.count : DirectoryNode → Nat
  | .mk _ _ c _ _ => c

def DirectoryNode.children : DirectoryNode → List DirectoryNode
  | .mk _ _ _ cs _ => cs

def DirectoryNode.records : DirectoryNode → List IntentRecord
  | .mk _ _ _ _ rs => rs

mutual

/-- Boolean structural equality of directory nodes. -/
def DirectoryNode.beq : DirectoryNode → DirectoryNode → Bool
  | .mk n1 p1 c1 cs1 rs1, .mk n2 p2 c2 cs2 rs2 =>
      n1 == n2 && p1 == p2 && c1 == c2 && DirectoryNode.beqList cs1 cs2 && rs1 == rs2

/-- Boolean structural equality of lists of directory nodes. -/
def DirectoryNode.beqList : List DirectoryNode → List DirectoryNode → Bool
  | [], [] => true
  | a :: as, b :: bs => DirectoryNode.beq a b && DirectoryNode.beqList as bs
  | _, _ => false

end

mutual

theorem DirectoryNode.beq_iff : ∀ a b : DirectoryNode,
    (DirectoryNode.beq a b = true) ↔ a = b
  | .mk n1 p1 c1 cs1 rs1, .mk n2 p2 c2 cs2 rs2 => by
    have h := DirectoryNode.beqList_iff cs1 cs2
    simp only [DirectoryNode.beq, Bool.and_eq_true, beq_iff_eq, h, DirectoryNode.mk.injEq]
    tauto

theorem DirectoryNode.beqList_iff : ∀ as bs : List DirectoryNode,
    (DirectoryNode.beqList as bs = true) ↔ as = bs
  | [], [] => by simp [DirectoryNode.beqList]
  | [], _ :: _ => by simp [DirectoryNode.beqList]
  | _ :: _, [] => by simp [DirectoryNode.beqList]
  | a :: as, b :: bs => by
    have h1 := DirectoryNode.beq_iff a b
    have h2 := DirectoryNode.beqList_iff as bs
    simp [DirectoryNode.beqList, h1, h2]

end

instance : DecidableEq DirectoryNode := fun a b =>
  decidable_of_iff _ (DirectoryNode.beq_iff a b)

/-- The `SortMode` union type of `page.tsx`. -/
inductive SortMode where
  | name
  | date
  | count
deriving DecidableEq

/-! String helpers used to model `String.prototype.includes` and
`String.prototype.localeCompare`. -/

/-- Whether the first character list is an initial run of the second. -/
def isPrefixList : List Char → List Char → Bool
  | [], _ => true
  | _ :: _, [] => false
  | a :: as, b :: bs => a = b && isPrefixList as bs

/-- Whether the first character list occurs contiguously in the second. -/
def containsSubList (pat : List Char) : List Char → Bool
  | [] => pat.isEmpty
  | b :: bs => isPrefixList pat (b :: bs) || containsSubList pat bs

/-- Model of `s.includes(pat)` on JavaScript strings. -/
def containsSub (s pat : String) : Bool :=
  containsSubList pat.data s.data

/-- ASCII lowercasing of one character, the character-level behavior of
`String.prototype.toLowerCase` on ASCII input. -/
def lowerChar (c : Char) : Char :=
  if 65 ≤ c.toNat ∧ c.toNat ≤ 90 then Char.ofNat (c.toNat + 32) else c

/-- Lowercase an entire string, as `s.toLowerCase()` does on ASCII input. -/
def lowerStr (s : String) : String :=
  ⟨s.data.map lowerChar⟩

/-- Code-point lexicographic three-way comparison of character lists. -/
def cmpCharList : List Char → List Char → Int
  | [], [] => 0
  | [], _ :: _ => -1
  | _ :: _, [] => 1
  | a :: as, b :: bs =>
      if a.toNat < b.toNat then -1
      else if b.toNat < a.toNat then 1
      else cmpCharList as bs

/-- Tertiary (case) comparison of two character lists that agree after case
folding: the first position whose characters differ orders the list with
the lowercase character first, as in the ICU root collation. -/
def caseTieCmp : List Char → List Char → Int
  | [], [] => 0
  | [], _ :: _ => -1
  | _ :: _, [] => 1
  | a :: as, b :: bs => if a = b then caseTieCmp as bs else if a.isLower then -1 else 1

/-- Model of `s.localeCompare(t)` under the default collator, restricted to
ASCII strings: compare case-folded strings lexicographically first, and
break full case-folded ties by `caseTieCmp` (lowercase first). -/
def icuCmp (s t : String) : Int :=
  let primary := cmpCharList (s.data.map lowerChar) (t.data.map lowerChar)
  if primary = 0 then caseTieCmp s.data t.data else primary

/-! A stable insertion sort over a boolean predicate `le`. ECMA-262
requires `Array.prototype.sort` to be stable; for a consistent comparator
the output of any stable sort agrees with it. -/

/-- Insert `a` before the first element `b` of an already sorted list with
`le a b = true`; elements that tie with `a` therefore stay before it, which
gives stability. -/
def insertSorted {α : Type} (le : α → α → Bool) (a : α) : List α → List α
  | [] => [a]
  | b :: t => if le a b then a :: b :: t else b :: insertSorted le a t

/-- Stable insertion sort with respect to `le`. -/
def insertionSort {α : Type} (le : α → α → Bool) : List α → List α
  | [] => []
  | a :: t => insertSorted le a (insertionSort le t)

theorem insertSorted_perm {α : Type} (le : α → α → Bool) (a : α) (l : List α) :
    List.Perm (insertSorted le a l) (a :: l) := by
  induction l with
  | nil => simp [insertSorted]
  | cons b t ih =>
    by_cases h : le a b = true
    · simp [insertSorted, h]
    · simp only [insertSorted, if_neg h]
      exact ((ih.cons b).trans (List.Perm.swap a b t))

theorem insertionSort_perm {α : Type} (le : α → α → Bool) (l : List α) :
    List.Perm (insertionSort le l) l := by
  induction l with
  | nil => exact List.Perm.refl _
  | cons a t ih =>
    exact (insertSorted_perm le a (insertionSort le t)).trans (ih.cons a)

theorem insertionSort_length {α : Type} (le : α → α → Bool) (l : List α) :
    (insertionSort le l).length = l.length :=
  (insertionSort_perm le l).length_eq

/-! Embedding of `groupRecords` from `page.tsx`. -/

/-- The grouping key actually used per record: `keyFn(rec) || "Uncategorized"`
in the source; the empty string is the only falsy value of a string-typed
key, so it is the fallback trigger. -/
def effKey (keyFn : IntentRecord → String) (r : IntentRecord) : String :=
  if keyFn r = "" then "Uncategorized" else keyFn r

/-- Append a record to the bucket of key `k`, creating the bucket at the
end if the key is new; this models `if (!groups[key]) groups[key] = [];
groups[key].push(rec)` on an insertion-ordered dictionary. -/
def insertGroup : List (String × List IntentRecord) → String → IntentRecord →
    List (String × List IntentRecord)
  | [], k, r => [(k, [r])]
  | (k', rs) :: t, k, r =>
      if k' = k then (k', rs ++ [r]) :: t else (k', rs) :: insertGroup t k r

/-- The `groups` dictionary of `groupRecords`, as an association list in
key-insertion order. -/
def buildGroups (records : List IntentRecord) (keyFn : IntentRecord → String) :
    List (String × List IntentRecord) :=
  records.foldl (fun gs r => insertGroup gs (effKey keyFn r) r) []

/-- Parse a run of decimal digits into a number; `none` on any non-digit. -/
def parseDigits (acc : Nat) : List Char → Option Nat
  | [] => some acc
  | c :: cs =>
      if 48 ≤ c.toNat ∧ c.toNat ≤ 57 then parseDigits (acc * 10 + (c.toNat - 48)) cs
      else none

/-- Detect a string key that is a canonical array index in the sense of
ECMA-262: the decimal rendering of some `n < 2^32 - 1`, that is, a
non-empty digit string with no leading zero other than `"0"` itself. -/
def jsArrayIndex (s : String) : Option Nat :=
  match s.data with
  | [] => none
  | c :: cs =>
      if c = '0' ∧ cs ≠ [] then none
      else
        match parseDigits 0 (c :: cs) with
        | some n => if n < 4294967295 then some n else none
        | none => none

/-- Order on dictionary entries whose keys are array indices: ascending
numeric order. -/
def jsEntryLe (a b : String × List IntentRecord) : Bool :=
  (jsArrayIndex a.1).getD 0 ≤ (jsArrayIndex b.1).getD 0

/-- Model of `Object.entries(groups)`: array-index keys first in ascending
numeric order, then the remaining keys in insertion order. -/
def jsEntries (gs : List (String × List IntentRecord)) :
    List (String × List IntentRecord) :=
  insertionSort jsEntryLe (gs.filter fun g => (jsArrayIndex g.1).isSome)
    ++ gs.filter fun g => (jsArrayIndex g.1).isNone

/-- Model of the JavaScript expression `a.title || a.url` (the title is
used unless it is absent or empty). -/
def titleOrUrl (r : IntentRecord) : String :=
  match r.title with
  | some t => if t = "" then r.url else t
  | none => r.url

/-- Model of `r.lastmod || ""`. -/
def lastmodOrEmpty (r : IntentRecord) : String :=
  r.lastmod.getD ""

/-- The record comparator inside each group of `groupRecords`, as the
predicate `comparator a b ≤ 0`: newest `lastmod` first in date mode,
otherwise title-or-url locale order. -/
def recordLe (sortMode : SortMode) (a b : IntentRecord) : Bool :=
  match sortMode with
  | .date => icuCmp (lastmodOrEmpty b) (lastmodOrEmpty a) ≤ 0
  | _ => icuCmp (titleOrUrl a) (titleOrUrl b) ≤ 0

/-- The sibling-group comparator of `groupRecords`, as the predicate
`comparator a b ≤ 0`: descending count in count mode and in date mode
(the source falls back to descending count for date), locale name order
in name mode. -/
def groupLe (sortMode : SortMode) (a b : DirectoryNode) : Bool :=
  match sortMode with
  | .name => icuCmp a.name b.name ≤ 0
  | .date => b.count ≤ a.count
  | .count => b.count ≤ a.count

/-- One child node built from a dictionary entry: name is the key, path is
`"/" ++ key`, count is the bucket size, no children, and the bucket sorted
by `recordLe` as the attached records. -/
def mkGroupNode (sortMode : SortMode) (g : String × List IntentRecord) :
    DirectoryNode :=
  .mk g.1 ("/" ++ g.1) g.2.length [] (insertionSort (recordLe sortMode) g.2)

/-- The children array of the node returned by `groupRecords`, after the
in-place `children.sort`. -/
def groupChildren (records : List IntentRecord) (keyFn : IntentRecord → String)
    (sortMode : SortMode) : List DirectoryNode :=
  insertionSort (groupLe sortMode)
    ((jsEntries (buildGroups records keyFn)).map (mkGroupNode sortMode))

/-- The `groupRecords` function of `page.tsx`: a synthetic root named
`Root` with the grouped children and no attached records. -/
def groupRecords (records : List IntentRecord) (keyFn : IntentRecord → String)
    (sortMode : SortMode) : DirectoryNode :=
  .mk "Root" "/" records.length (groupChildren records keyFn sortMode) []

/-! Embedding of `getAllRecords` and the derived `newUrlCount` stat. -/

mutual

/-- The `getAllRecords` helper of `page.tsx`: the records of the node
followed by the records collected from each child in order, recursively. -/
def getAllRecords : DirectoryNode → List IntentRecord
  | .mk _ _ _ children records => records ++ getAllRecordsList children

/-- Concatenation of `getAllRecords` over a child list, in order. -/
def getAllRecordsList : List DirectoryNode → List IntentRecord
  | [] => []
  | n :: t => getAllRecords n ++ getAllRecordsList t

end

/-- The `newUrlCount` stat of the dashboard: `baseRecords` is
`getAllRecords(data.directory_tree)` and the stat is the number of its
records with `is_new` truthy. -/
def newUrlCount (directory_tree : DirectoryNode) : Nat :=
  ((getAllRecords directory_tree).filter fun r => r.is_new).length

/-- Sum of the `count` fields of a list of nodes. -/
def sumCounts (l : List DirectoryNode) : Nat :=
  (l.map DirectoryNode.count).sum

mutual

/-- The tree count invariant: at every node, `count` equals the number of
attached records plus the sum of the counts of the children. -/
def treeInv : DirectoryNode → Bool
  | .mk _ _ count children records =>
      count == records.length + sumCounts children && treeInvAll children

/-- The tree count invariant for every node of a list of trees. -/
def treeInvAll : List DirectoryNode → Bool
  | [] => true
  | n :: t => treeInv n && treeInvAll t

end

/-! Embedding of the `currentNode` navigation of `page.tsx`. -/

/-- Walk the navigation path from `current`, descending into the first
child whose name equals the next segment; on the first segment with no
matching child, return the whole virtual root `root`, as the source does
with its early `return virtualRoot`. -/
def currentNodeAux (root : DirectoryNode) :
    DirectoryNode → List String → DirectoryNode
  | current, [] => current
  | current, seg :: rest =>
      match current.children.find? (fun c => c.name == seg) with
      | some child => currentNodeAux root child rest
      | none => root

/-- The `currentNode` memo of `page.tsx`, as a function of the virtual
root and the navigation path. -/
def currentNode (virtualRoot : DirectoryNode) (navigationPath : List String) :
    DirectoryNode :=
  currentNodeAux virtualRoot virtualRoot navigationPath

/-- Reference descent: the descendant reached when every successive
segment matches the name of a child of the node reached so far, and
`none` as soon as a segment fails to match. -/
def resolvePath : DirectoryNode → List String → Option DirectoryNode
  | n, [] => some n
  | n, seg :: rest =>
      match n.children.find? (fun c => c.name == seg) with
      | some child => resolvePath child rest
      | none => none

/-! Embedding of the record filter of `NodeDetails.tsx`. -/

/-- The `COMMON_PAGE_PATTERNS` list of `NodeDetails.tsx`. -/
def COMMON_PAGE_PATTERNS : List String :=
  ["login", "signup", "signin", "register", "cart", "account", "reset-password",
   "contact", "pricing", "legal", "policy", "terms", "about", "support",
   "faq", "help", "careers", "jobs", "status", "feed", "rss", "atom", "sitemap"]

/-- The `isNoise` helper: the lowercased name contains some common-page
pattern as a substring. -/
def isNoise (name : String) : Bool :=
  COMMON_PAGE_PATTERNS.any fun p => containsSub (lowerStr name) p

/-- The search-branch predicate of `filteredRecords`: the lowercased
query occurs in the path, the title (empty when absent), the action, or
the object of the record. -/
def recordMatchesSearch (searchQuery : String) (record : IntentRecord) : Bool :=
  let q := lowerStr searchQuery
  containsSub (lowerStr record.path) q
    || containsSub (lowerStr (record.title.getD "")) q
    || containsSub (lowerStr record.action) q
    || containsSub (lowerStr record.object) q

/-- The `filteredRecords` memo of `NodeDetails.tsx`, as a function of the
node records and the two pieces of component state (`hideCommon`, which
defaults to `true`, and `searchQuery`, which defaults to `""`). -/
def filteredRecords (records : List IntentRecord) (hideCommon : Bool)
    (searchQuery : String) : List IntentRecord :=
  records.filter fun record =>
    if hideCommon && isNoise record.path then false
    else if searchQuery ≠ "" then recordMatchesSearch searchQuery record
    else true

/-! Embedding of the summary-document shape from `dashboard/src/types`. -/

/-- An entry of `by_intent_category`, after the `IntentGroup` interface. -/
structure IntentGroup where
  intent_category : String
  url_count : Nat
  sample_urls : List String
deriving DecidableEq

/-- An entry of `by_action_object`, after the `ActionObjectGroup`
interface. -/
structure ActionObjectGroup where
  action : String
  object : String
  url_count : Nat
  sample_urls : List String
deriving DecidableEq

/-- The summary document consumed by the dashboard, after the
`SitemapSummary` interface; the two coverage percentages are rational
numbers. -/
structure SitemapSummary where
  schema_version : String
  by_intent_category : List IntentGroup
  by_action_object : List ActionObjectGroup
  total_urls : Nat
  coverage_strict_percentage : ℚ
  coverage_any_percentage : ℚ
  directory_tree : DirectoryNode

/-- Total number of records stored across all buckets of a grouping
dictionary. -/
def totalSize (gs : List (String × List IntentRecord)) : Nat :=
  (gs.map fun g => g.2.length).sum

/-- A minimal concrete record with a given url and intent category, used
by scenario theorems and witnesses. -/
def sampleRec (u cat : String) : IntentRecord :=
  { url := u, path := "/" ++ u, title := none, action := "a", object := "o",
    intent_category := cat, lastmod := none, is_new := false }

/-! Basic lemmas about the embedded definitions. -/

@[simp] theorem DirectoryNode.name_mk (n p : String) (c : Nat)
    (cs : List DirectoryNode) (rs : List IntentRecord) :
    (DirectoryNode.mk n p c cs rs).name = n := rfl

@[simp] theorem DirectoryNode.path_mk (n p : String) (c : Nat)
    (cs : List DirectoryNode) (rs : List IntentRecord) :
    (DirectoryNode.mk n p c cs rs).path = p := rfl

@[simp] theorem DirectoryNode.count_mk (n p : String) (c : Nat)
    (cs : List DirectoryNode) (rs : List IntentRecord) :
    (DirectoryNode.mk n p c cs rs).count = c := rfl

@[simp] theorem DirectoryNode.children_mk (n p : String) (c : Nat)
    (cs : List DirectoryNode) (rs : List IntentRecord) :
    (DirectoryNode.mk n p c cs rs).children = cs := rfl

@[simp] theorem DirectoryNode.records_mk (n p : String) (c : Nat)
    (cs : List DirectoryNode) (rs : List IntentRecord) :
    (DirectoryNode.mk n p c cs rs).records = rs := rfl

@[simp] theorem mkGroupNode_name (sm : SortMode) (g : String × List IntentRecord) :
    (mkGroupNode sm g).name = g.1 := rfl

@[simp] theorem mkGroupNode_count (sm : SortMode) (g : String × List IntentRecord) :
    (mkGroupNode sm g).count = g.2.length := rfl

@[simp] theorem mkGroupNode_children (sm : SortMode) (g : String × List IntentRecord) :
    (mkGroupNode sm g).children = [] := rfl

@[simp] theorem mkGroupNode_records (sm : SortMode) (g : String × List IntentRecord) :
    (mkGroupNode sm g).records = insertionSort (recordLe sm) g.2 := rfl

theorem treeInvAll_iff (l : List DirectoryNode) :
    treeInvAll l = true ↔ ∀ n ∈ l, treeInv n = true := by
  induction l with
  | nil => simp [treeInvAll]
  | cons n t ih => simp [treeInvAll, ih]

/-! Lemmas about the grouping dictionary. -/

theorem totalSize_insertGroup (gs : List (String × List IntentRecord))
    (k : String) (r : IntentRecord) :
    totalSize (insertGroup gs k r) = totalSize gs + 1 := by
  induction gs with
  | nil => simp [insertGroup, totalSize]
  | cons g t ih =>
    obtain ⟨k', rs⟩ := g
    by_cases h : k' = k
    · simp only [insertGroup, if_pos h, totalSize, List.map_cons, List.sum_cons,
        List.length_append, List.length_singleton]
      omega
    · simp only [insertGroup, if_neg h, totalSize, List.map_cons, List.sum_cons]
      have := ih
      simp only [totalSize] at this
      omega

theorem totalSize_buildGroups_aux (keyFn : IntentRecord → String)
    (l : List IntentRecord) (gs : List (String × List IntentRecord)) :
    totalSize (l.foldl (fun acc r => insertGroup acc (effKey keyFn r) r) gs)
      = totalSize gs + l.length := by
  induction l generalizing gs with
  | nil => simp
  | cons r t ih =>
    simp only [List.foldl_cons, List.length_cons, ih, totalSize_insertGroup]
    omega

theorem totalSize_buildGroups (records : List IntentRecord)
    (keyFn : IntentRecord → String) :
    totalSize (buildGroups records keyFn) = records.length := by
  simpa [totalSize] using totalSize_buildGroups_aux keyFn records []

theorem insertGroup_keys (gs : List (String × List IntentRecord))
    (k : String) (r : IntentRecord) :
    (insertGroup gs k r).map Prod.fst =
      if k ∈ gs.map Prod.fst then gs.map Prod.fst else gs.map Prod.fst ++ [k] := by
  induction gs with
  | nil => simp [insertGroup]
  | cons g t ih =>
    obtain ⟨k', rs⟩ := g
    by_cases h : k' = k
    · simp [insertGroup, h]
    · have hne : ¬ k = k' := fun hk => h hk.symm
      simp only [insertGroup, if_neg h, List.map_cons, List.mem_cons, ih]
      by_cases hm : k ∈ t.map Prod.fst
      · simp [hm, hne]
      · simp [hm, hne]

theorem insertGroup_keys_nodup (gs : List (String × List IntentRecord))
    (k : String) (r : IntentRecord)
    (h : (gs.map Prod.fst).Nodup) : ((insertGroup gs k r).map Prod.fst).Nodup := by
  rw [insertGroup_keys]
  by_cases hm : k ∈ gs.map Prod.fst
  · simpa [hm] using h
  · simp only [if_neg hm]
    refine List.Nodup.append h (List.nodup_singleton k) ?_
    intro a ha hak
    rw [List.mem_singleton] at hak
    subst hak
    exact hm ha

theorem buildGroups_keys_nodup (records : List IntentRecord)
    (keyFn : IntentRecord → String) :
    ((buildGroups records keyFn).map Prod.fst).Nodup := by
  suffices h : ∀ (l : List IntentRecord) (gs : List (String × List IntentRecord)),
      (gs.map Prod.fst).Nodup →
      ((l.foldl (fun acc r => insertGroup acc (effKey keyFn r) r) gs).map Prod.fst).Nodup by
    exact h records [] (by simp)
  intro l
  induction l with
  | nil => intro gs hgs; simpa using hgs
  | cons r t ih =>
    intro gs hgs
    exact ih _ (insertGroup_keys_nodup gs _ r hgs)

theorem mem_keys_insertGroup (gs : List (String × List IntentRecord))
    (k k' : String) (r : IntentRecord) :
    k' ∈ (insertGroup gs k r).map Prod.fst ↔ k' ∈ gs.map Prod.fst ∨ k' = k := by
  rw [insertGroup_keys]
  by_cases hm : k ∈ gs.map Prod.fst
  · simp only [if_pos hm]
    constructor
    · exact fun h => Or.inl h
    · rintro (h | rfl)
      · exact h
      · exact hm
  · simp [if_neg hm]

theorem mem_keys_buildGroups (records : List IntentRecord)
    (keyFn : IntentRecord → String) (k : String) :
    k ∈ (buildGroups records keyFn).map Prod.fst ↔
      ∃ r ∈ records, effKey keyFn r = k := by
  suffices h : ∀ (l : List IntentRecord) (gs : List (String × List IntentRecord)),
      k ∈ (l.foldl (fun acc r => insertGroup acc (effKey keyFn r) r) gs).map Prod.fst ↔
        k ∈ gs.map Prod.fst ∨ ∃ r ∈ l, effKey keyFn r = k by
    simpa using h records []
  intro l
  induction l with
  | nil => intro gs; simp
  | cons r t ih =>
    intro gs
    rw [List.foldl_cons, ih, mem_keys_insertGroup]
    constructor
    · rintro ((h | h) | h)
      · exact Or.inl h
      · exact Or.inr ⟨r, by simp, h.symm⟩
      · obtain ⟨x, hx, hk⟩ := h
        exact Or.inr ⟨x, by simp [hx], hk⟩
    · rintro (h | ⟨x, hx, hk⟩)
      · exact Or.inl (Or.inl h)
      · rcases List.mem_cons.mp hx with hx | hx
        · exact Or.inl (Or.inr (hx ▸ hk).symm)
        · exact Or.inr ⟨x, hx, hk⟩

theorem insertGroup_sound (gs : List (String × List IntentRecord))
    (k : String) (r : IntentRecord) (keyFn : IntentRecord → String)
    (hk : effKey keyFn r = k)
    (h : ∀ p ∈ gs, ∀ x ∈ p.2, effKey keyFn x = p.1) :
    ∀ p ∈ insertGroup gs k r, ∀ x ∈ p.2, effKey keyFn x = p.1 := by
  induction gs with
  | nil =>
    intro p hp x hx
    simp only [insertGroup, List.mem_singleton] at hp
    subst hp
    simp only [List.mem_singleton] at hx
    subst hx
    exact hk
  | cons g t ih =>
    obtain ⟨k', rs⟩ := g
    by_cases hkk : k' = k
    · intro p hp x hx
      simp only [insertGroup, if_pos hkk, List.mem_cons] at hp
      rcases hp with hp | hp
      · subst hp
        simp only [List.mem_append, List.mem_singleton] at hx
        rcases hx with hx | hx
        · exact h (k', rs) (by simp) x hx
        · subst hx
          simpa [hkk] using hk
      · exact h p (by simp [hp]) x hx
    · intro p hp x hx
      simp only [insertGroup, if_neg hkk, List.mem_cons] at hp
      rcases hp with hp | hp
      · subst hp
        exact h (k', rs) (by simp) x hx
      · exact ih (fun q hq => h q (by simp [hq])) p hp x hx

theorem buildGroups_sound (records : List IntentRecord)
    (keyFn : IntentRecord → String) :
    ∀ p ∈ buildGroups records keyFn, ∀ x ∈ p.2, effKey keyFn x = p.1 := by
  suffices h : ∀ (l : List IntentRecord) (gs : List (String × List IntentRecord)),
      (∀ p ∈ gs, ∀ x ∈ p.2, effKey keyFn x = p.1) →
      ∀ p ∈ l.foldl (fun acc r => insertGroup acc (effKey keyFn r) r) gs,
        ∀ x ∈ p.2, effKey keyFn x = p.1 by
    exact h records [] (by simp)
  intro l
  induction l with
  | nil => intro gs hgs; simpa using hgs
  | cons r t ih =>
    intro gs hgs
    exact ih _ (insertGroup_sound gs _ r keyFn rfl hgs)

theorem mem_insertGroup_self (gs : List (String × List IntentRecord))
    (k : String) (r : IntentRecord) :
    ∃ p ∈ insertGroup gs k r, p.1 = k ∧ r ∈ p.2 := by
  induction gs with
  | nil => exact ⟨(k, [r]), by simp [insertGroup]⟩
  | cons g t ih =>
    obtain ⟨k', rs⟩ := g
    by_cases h : k' = k
    · exact ⟨(k', rs ++ [r]), by simp [insertGroup, h]⟩
    · obtain ⟨p, hp, hpk, hpr⟩ := ih
      exact ⟨p, by simp [insertGroup, if_neg h, hp], hpk, hpr⟩

theorem mem_insertGroup_mono (gs : List (String × List IntentRecord))
    (k : String) (r : IntentRecord) (p : String × List IntentRecord)
    (hp : p ∈ gs) :
    ∃ q ∈ insertGroup gs k r, q.1 = p.1 ∧ ∀ x ∈ p.2, x ∈ q.2 := by
  induction gs with
  | nil => cases hp
  | cons g t ih =>
    obtain ⟨k', rs⟩ := g
    by_cases h : k' = k
    · rcases List.mem_cons.mp hp with hp | hp
      · subst hp
        exact ⟨(k', rs ++ [r]), by simp [insertGroup, h], rfl, fun x hx => by simp [hx]⟩
      · exact ⟨p, by simp [insertGroup, h, hp], rfl, fun x hx => hx⟩
    · rcases List.mem_cons.mp hp with hp | hp
      · subst hp
        exact ⟨(k', rs), by simp [insertGroup, if_neg h], rfl, fun x hx => hx⟩
      · obtain ⟨q, hq, hqk, hqm⟩ := ih hp
        exact ⟨q, by simp [insertGroup, if_neg h, hq], hqk, hqm⟩

theorem mem_buildGroups_of_mem (records : List IntentRecord)
    (keyFn : IntentRecord → String) (r : IntentRecord) (hr : r ∈ records) :
    ∃ p ∈ buildGroups records keyFn, p.1 = effKey keyFn r ∧ r ∈ p.2 := by
  have mono : ∀ (l : List IntentRecord) (gs : List (String × List IntentRecord))
      (p : String × List IntentRecord), p ∈ gs →
      ∃ q ∈ l.foldl (fun acc x => insertGroup acc (effKey keyFn x) x) gs,
        q.1 = p.1 ∧ ∀ x ∈ p.2, x ∈ q.2 := by
    intro l
    induction l with
    | nil => intro gs p hp; exact ⟨p, hp, rfl, fun x hx => hx⟩
    | cons a t ih =>
      intro gs p hp
      obtain ⟨q, hq, hqk, hqm⟩ := mem_insertGroup_mono gs (effKey keyFn a) a p hp
      obtain ⟨q', hq', hq'k, hq'm⟩ := ih _ q hq
      exact ⟨q', hq', hq'k.trans hqk, fun x hx => hq'm x (hqm x hx)⟩
  suffices h : ∀ (l : List IntentRecord) (gs : List (String × List IntentRecord)),
      r ∈ l →
      ∃ p ∈ l.foldl (fun acc x => insertGroup acc (effKey keyFn x) x) gs,
        p.1 = effKey keyFn r ∧ r ∈ p.2 by
    exact h records [] hr
  intro l
  induction l with
  | nil => intro gs h; cases h
  | cons a t ih =>
    intro gs h
    rcases List.mem_cons.mp h with rfl | h
    · obtain ⟨p, hp, hpk, hpr⟩ := mem_insertGroup_self gs (effKey keyFn r) r
      obtain ⟨q, hq, hqk, hqm⟩ := mono t _ p hp
      exact ⟨q, hq, hqk.trans hpk, hqm r hpr⟩
    · exact ih _ h

/-! Permutation lemmas connecting the sorted views to the dictionary. -/

theorem filter_split_perm {α : Type} (p : α → Bool) (l : List α) :
    List.Perm (l.filter p ++ l.filter fun x => !p x) l := by
  induction l with
  | nil => simp
  | cons a t ih =>
    by_cases h : p a = true
    · simpa [List.filter_cons, h] using ih.cons a
    · have hb : p a = false := by simpa using h
      simp only [List.filter_cons, hb, Bool.not_false, if_neg, cond_false, cond_true]
      exact List.perm_middle.trans (ih.cons a)

theorem jsEntries_perm (gs : List (String × List IntentRecord)) :
    List.Perm (jsEntries gs) gs := by
  unfold jsEntries
  refine List.Perm.trans (List.Perm.append (insertionSort_perm _ _) (List.Perm.refl _)) ?_
  have := filter_split_perm (fun g : String × List IntentRecord =>
    (jsArrayIndex g.1).isSome) gs
  refine List.Perm.trans ?_ this
  apply List.Perm.append (List.Perm.refl _)
  have : ∀ g : String × List IntentRecord,
      ((jsArrayIndex g.1).isNone = (!(jsArrayIndex g.1).isSome)) := by
    intro g
    cases jsArrayIndex g.1 <;> rfl
  rw [List.filter_congr (fun g _ => this g)]

theorem groupChildren_perm (records : List IntentRecord)
    (keyFn : IntentRecord → String) (sm : SortMode) :
    List.Perm (groupChildren records keyFn sm)
      ((buildGroups records keyFn).map (mkGroupNode sm)) := by
  unfold groupChildren
  exact (insertionSort_perm _ _).trans ((jsEntries_perm _).map _)

theorem mem_groupChildren_iff (records : List IntentRecord)
    (keyFn : IntentRecord → String) (sm : SortMode) (c : DirectoryNode) :
    c ∈ groupChildren records keyFn sm ↔
      ∃ g ∈ buildGroups records keyFn, c = mkGroupNode sm g := by
  rw [(groupChildren_perm records keyFn sm).mem_iff, List.mem_map]
  constructor
  · rintro ⟨g, hg, rfl⟩
    exact ⟨g, hg, rfl⟩
  · rintro ⟨g, hg, rfl⟩
    exact ⟨g, hg, rfl⟩

theorem sumCounts_perm (l₁ l₂ : List DirectoryNode) (h : List.Perm l₁ l₂) :
    sumCounts l₁ = sumCounts l₂ :=
  (h.map DirectoryNode.count).sum_eq

theorem sumCounts_groupChildren (records : List IntentRecord)
    (keyFn : IntentRecord → String) (sm : SortMode) :
    sumCounts (groupChildren records keyFn sm) = records.length := by
  rw [sumCounts_perm _ _ (groupChildren_perm records keyFn sm)]
  have : sumCounts ((buildGroups records keyFn).map (mkGroupNode sm))
      = totalSize (buildGroups records keyFn) := by
    simp [sumCounts, totalSize, List.map_map, Function.comp_def]
  rw [this, totalSize_buildGroups]

theorem treeInv_mkGroupNode (sm : SortMode) (g : String × List IntentRecord) :
    treeInv (mkGroupNode sm g) = true := by
  simp [treeInv, mkGroupNode, treeInvAll, sumCounts, insertionSort_length]

theorem treeInvAll_groupChildren (records : List IntentRecord)
    (keyFn : IntentRecord → String) (sm : SortMode) :
    treeInvAll (groupChildren records keyFn sm) = true := by
  rw [treeInvAll_iff]
  intro n hn
  obtain ⟨g, _, rfl⟩ := (mem_groupChildren_iff records keyFn sm n).mp hn
  exact treeInv_mkGroupNode sm g

/-! Claim theorems. -/

/-- C1: in every tree returned by `groupRecords` — for any input record
list, grouping key function and sort mode — every node satisfies
`count = records.length + sum of child counts` (the recursive check
`treeInv`), and the count of the root equals the number of input
records. -/
theorem groupRecords_tree_count_invariant (records : List IntentRecord)
    (keyFn : IntentRecord → String) (sortMode : SortMode) :
    treeInv (groupRecords records keyFn sortMode) = true ∧
    (groupRecords records keyFn sortMode).count = records.length := by
  refine ⟨?_, rfl⟩
  simp [groupRecords, treeInv, sumCounts_groupChildren, treeInvAll_groupChildren]

/-- Helper for C2: the tree built by `groupRecords` is flat for every key
function: the root carries no records, every child is a leaf group, and
the child names are exactly the distinct effective key values of the
input records. -/
theorem groupRecords_flat_shape (records : List IntentRecord)
    (keyFn : IntentRecord → String) (sm : SortMode) :
    (groupRecords records keyFn sm).records = [] ∧
    (∀ c ∈ (groupRecords records keyFn sm).children, c.children = []) ∧
    ((groupRecords records keyFn sm).children.map DirectoryNode.name).Nodup ∧
    (∀ k, k ∈ (groupRecords records keyFn sm).children.map DirectoryNode.name ↔
      ∃ r ∈ records, effKey keyFn r = k) := by
  have hperm : List.Perm ((groupChildren records keyFn sm).map DirectoryNode.name)
      ((buildGroups records keyFn).map Prod.fst) := by
    have h := (groupChildren_perm records keyFn sm).map DirectoryNode.name
    simpa [List.map_map, Function.comp_def] using h
  refine ⟨rfl, ?_, ?_, ?_⟩
  · intro c hc
    obtain ⟨g, _, rfl⟩ := (mem_groupChildren_iff records keyFn sm c).mp hc
    rfl
  · exact hperm.nodup_iff.mpr (buildGroups_keys_nodup records keyFn)
  · intro k
    rw [show (groupRecords records keyFn sm).children = groupChildren records keyFn sm
      from rfl, hperm.mem_iff, mem_keys_buildGroups]

/-- C2: grouping by `intent_category` (Intent view) or by `object` (Media
view) yields a synthetic root with no attached records whose direct
children are exactly the distinct group-key values (the field value, or
`Uncategorized` when it is empty), and every child is a leaf: no
sub-children, only attached records. -/
theorem groupRecords_flat_one_level (records : List IntentRecord) (sm : SortMode) :
    ((groupRecords records (fun r => r.intent_category) sm).records = [] ∧
      (∀ c ∈ (groupRecords records (fun r => r.intent_category) sm).children,
        c.children = []) ∧
      ((groupRecords records (fun r => r.intent_category) sm).children.map
        DirectoryNode.name).Nodup ∧
      (∀ k, k ∈ (groupRecords records (fun r => r.intent_category) sm).children.map
          DirectoryNode.name ↔
        ∃ r ∈ records, effKey (fun r => r.intent_category) r = k)) ∧
    ((groupRecords records (fun r => r.object) sm).records = [] ∧
      (∀ c ∈ (groupRecords records (fun r => r.object) sm).children,
        c.children = []) ∧
      ((groupRecords records (fun r => r.object) sm).children.map
        DirectoryNode.name).Nodup ∧
      (∀ k, k ∈ (groupRecords records (fun r => r.object) sm).children.map
          DirectoryNode.name ↔
        ∃ r ∈ records, effKey (fun r => r.object) r = k)) :=
  ⟨groupRecords_flat_shape records (fun r => r.intent_category) sm,
   groupRecords_flat_shape records (fun r => r.object) sm⟩

/-- Witness for C2 at a concrete input: one record with category `x`
yields the single leaf child named `x`. -/
theorem groupRecords_flat_one_level_witness :
    (DirectoryNode.mk "x" "/x" 1 [] [sampleRec "u1" "x"]).children = [] ∧
    ("x" ∈ (groupRecords [sampleRec "u1" "x"] (fun r => r.intent_category)
      SortMode.name).children.map DirectoryNode.name) := by
  have h := groupRecords_flat_one_level [sampleRec "u1" "x"] SortMode.name
  constructor
  · exact h.1.2.1 (DirectoryNode.mk "x" "/x" 1 [] [sampleRec "u1" "x"]) (by decide)
  · exact (h.1.2.2.2 "x").mpr ⟨sampleRec "u1" "x", List.mem_singleton.mpr rfl, rfl⟩

/-- C4: a record whose grouping key is the empty string (the only falsy
value of a string-typed key) is placed in the synthetic `Uncategorized`
group and appears in no other group. -/
theorem uncategorized_fallback (records : List IntentRecord)
    (keyFn : IntentRecord → String) (sm : SortMode) (r : IntentRecord)
    (hr : r ∈ records) (hk : keyFn r = "") :
    (∃ c ∈ (groupRecords records keyFn sm).children,
      c.name = "Uncategorized" ∧ r ∈ c.records) ∧
    (∀ c ∈ (groupRecords records keyFn sm).children,
      r ∈ c.records → c.name = "Uncategorized") := by
  have heff : effKey keyFn r = "Uncategorized" := by simp [effKey, hk]
  constructor
  · obtain ⟨p, hp, hpk, hpr⟩ := mem_buildGroups_of_mem records keyFn r hr
    refine ⟨mkGroupNode sm p, ?_, ?_, ?_⟩
    · exact (mem_groupChildren_iff records keyFn sm _).mpr ⟨p, hp, rfl⟩
    · simpa [hpk] using heff
    · simpa using ((insertionSort_perm (recordLe sm) p.2).mem_iff).mpr hpr
  · intro c hc hrc
    obtain ⟨g, hg, rfl⟩ := (mem_groupChildren_iff records keyFn sm c).mp hc
    simp only [mkGroupNode_records] at hrc
    have hrg : r ∈ g.2 := ((insertionSort_perm (recordLe sm) g.2).mem_iff).mp hrc
    have := buildGroups_sound records keyFn g hg r hrg
    simpa [heff] using this.symm

/-- Witness for C4 at a concrete input: with records keyed `""` and `"y"`,
the empty-keyed record lands in the `Uncategorized` group only. -/
theorem uncategorized_fallback_witness :
    (∃ c ∈ (groupRecords [sampleRec "u1" "", sampleRec "u2" "y"]
        (fun r => r.intent_category) SortMode.name).children,
      c.name = "Uncategorized" ∧ sampleRec "u1" "" ∈ c.records) ∧
    (∀ c ∈ (groupRecords [sampleRec "u1" "", sampleRec "u2" "y"]
        (fun r => r.intent_category) SortMode.name).children,
      sampleRec "u1" "" ∈ c.records → c.name = "Uncategorized") :=
  uncategorized_fallback [sampleRec "u1" "", sampleRec "u2" "y"]
    (fun r => r.intent_category) SortMode.name (sampleRec "u1" "")
    (List.mem_cons_self _ _) rfl

/-- C5: grouping five records with intent categories `[x,x,y,y,y]` by
`intent_category` with `sortMode = count` yields exactly two child groups
with url counts 3 and 2, the count-3 group first (descending count). -/
theorem grouping_scenario_counts :
    ((groupRecords [sampleRec "u1" "x", sampleRec "u2" "x", sampleRec "u3" "y",
        sampleRec "u4" "y", sampleRec "u5" "y"]
      (fun r => r.intent_category) SortMode.count).children.map
        DirectoryNode.count = [3, 2]) ∧
    ((groupRecords [sampleRec "u1" "x", sampleRec "u2" "x", sampleRec "u3" "y",
        sampleRec "u4" "y", sampleRec "u5" "y"]
      (fun r => r.intent_category) SortMode.count).children.map
        DirectoryNode.name = ["y", "x"]) := by
  constructor <;> decide

/-! Stability and sortedness of the descending-count sort, for C3. -/

theorem insertSorted_desc_filter {α : Type} (k : α → Nat) (c : Nat) (a : α)
    (l : List α) :
    (insertSorted (fun x y => decide (k y ≤ k x)) a l).filter (fun x => k x == c)
      = if k a = c then a :: l.filter (fun x => k x == c)
        else l.filter (fun x => k x == c) := by
  induction l with
  | nil => by_cases h : k a = c <;> simp [insertSorted, List.filter_cons, h]
  | cons b t ih =>
    by_cases hab : k b ≤ k a
    · simp only [insertSorted, decide_eq_true_eq, if_pos hab]
      by_cases h : k a = c <;> simp [List.filter_cons, h]
    · have hlt : k a < k b := by omega
      simp only [insertSorted, decide_eq_true_eq, if_neg hab]
      by_cases h : k a = c
      · have hbc : ¬ (k b = c) := by omega
        simp [List.filter_cons, hbc, ih, h]
      · by_cases hbc : k b = c <;> simp [List.filter_cons, hbc, ih, h]

theorem insertionSort_desc_filter {α : Type} (k : α → Nat) (c : Nat) (l : List α) :
    (insertionSort (fun x y => decide (k y ≤ k x)) l).filter (fun x => k x == c)
      = l.filter (fun x => k x == c) := by
  induction l with
  | nil => rfl
  | cons a t ih =>
    rw [insertionSort, insertSorted_desc_filter]
    by_cases h : k a = c <;> simp [List.filter_cons, h, ih]

theorem insertSorted_desc_sorted {α : Type} (k : α → Nat) (a : α) (l : List α)
    (h : l.Pairwise fun x y => k y ≤ k x) :
    (insertSorted (fun x y => decide (k y ≤ k x)) a l).Pairwise
      fun x y => k y ≤ k x := by
  induction l with
  | nil => simp [insertSorted]
  | cons b t ih =>
    rw [List.pairwise_cons] at h
    by_cases hab : k b ≤ k a
    · simp only [insertSorted, decide_eq_true_eq, if_pos hab]
      refine List.Pairwise.cons ?_ (List.Pairwise.cons h.1 h.2)
      intro x hx
      rcases List.mem_cons.mp hx with hx | hx
      · exact hx ▸ hab
      · exact le_trans (h.1 x hx) hab
    · have hlt : k a < k b := by omega
      simp only [insertSorted, decide_eq_true_eq, if_neg hab]
      refine List.Pairwise.cons ?_ (ih h.2)
      intro x hx
      have hx' := (insertSorted_perm (fun x y => decide (k y ≤ k x)) a t).mem_iff.mp hx
      rcases List.mem_cons.mp hx' with hx' | hx'
      · subst hx'
        omega
      · exact h.1 x hx'

theorem insertionSort_desc_sorted {α : Type} (k : α → Nat) (l : List α) :
    (insertionSort (fun x y => decide (k y ≤ k x)) l).Pairwise
      fun x y => k y ≤ k x := by
  induction l with
  | nil => simp [insertionSort]
  | cons a t ih => exact insertSorted_desc_sorted k a _ ih

theorem groupLe_count_eq :
    groupLe SortMode.count = fun a b => decide (b.count ≤ a.count) := rfl

/-- Counterexample for C3: two records with categories `b` then `a` give
two sibling groups of equal count 1; the code keeps them in
first-occurrence order `[b, a]`, which is not name order, so sibling
groups tying on count are not ordered by name. -/
theorem count_tie_name_order_counterexample :
    ¬ ((groupRecords [sampleRec "u1" "b", sampleRec "u2" "a"]
        (fun r => r.intent_category) SortMode.count).children.Pairwise
      fun a b => a.count = b.count → icuCmp a.name b.name ≤ 0) := by
  decide

/-- C3 amended: with `sortMode = count`, sibling groups are ordered by
descending count, and groups with equal counts keep their relative order
from `Object.entries` of the grouping dictionary (first-occurrence order
for non-index keys) — a stable sort — rather than falling back to name
order. -/
theorem count_sort_desc_stable (records : List IntentRecord)
    (keyFn : IntentRecord → String) :
    ((groupRecords records keyFn SortMode.count).children.Pairwise
      fun a b => b.count ≤ a.count) ∧
    (∀ c : Nat, (groupRecords records keyFn SortMode.count).children.filter
        (fun x => x.count == c)
      = ((jsEntries (buildGroups records keyFn)).map
          (mkGroupNode SortMode.count)).filter (fun x => x.count == c)) := by
  constructor
  · show (insertionSort (groupLe SortMode.count) _).Pairwise _
    rw [groupLe_count_eq]
    exact insertionSort_desc_sorted DirectoryNode.count _
  · intro c
    show (insertionSort (groupLe SortMode.count) _).filter _ = _
    rw [groupLe_count_eq]
    exact insertionSort_desc_filter DirectoryNode.count c _

/-! The locale comparator never equates distinct strings, for C6. -/

theorem caseTieCmp_eq_zero {x y : List Char} (h : caseTieCmp x y = 0) : x = y := by
  induction x generalizing y with
  | nil =>
    cases y with
    | nil => rfl
    | cons b bs => simp [caseTieCmp] at h
  | cons a as ih =>
    cases y with
    | nil => simp [caseTieCmp] at h
    | cons b bs =>
      by_cases hab : a = b
      · simp only [caseTieCmp, if_pos hab] at h
        rw [hab, ih h]
      · simp only [caseTieCmp, if_neg hab] at h
        by_cases hl : a.isLower <;> simp [hl] at h

/-- Counterexample for C6: the sibling-name comparator orders `"B"` after
`"b"` instead of treating them as equal, so with `sortMode = name` the
groups `B` and `b` are reordered to `[b, B]` rather than kept in their
(stable) insertion order. -/
theorem name_case_equal_counterexample :
    icuCmp "B" "b" ≠ 0 ∧
    (groupRecords [sampleRec "u1" "B", sampleRec "u2" "b"]
      (fun r => r.intent_category) SortMode.name).children.map
        DirectoryNode.name = ["b", "B"] := by
  constructor
  · decide
  · decide

/-- C6 amended: the name ordering uses the default-collator comparison,
whose primary stage is case-insensitive lexicographic, but which never
returns 0 on two distinct names: names differing only in letter case
compare unequal (ordered by case, lowercase first) instead of equal. -/
theorem name_compare_zero_iff_eq (s t : String) (h : icuCmp s t = 0) : s = t := by
  unfold icuCmp at h
  by_cases hp : cmpCharList (s.data.map lowerChar) (t.data.map lowerChar) = 0
  · rw [if_pos hp] at h
    exact String.ext (caseTieCmp_eq_zero h)
  · rw [if_neg hp] at h
    exact absurd h hp

/-- Witness for the C6 amended claim at a concrete input. -/
theorem name_compare_zero_iff_eq_witness : ("ab" : String) = "ab" :=
  name_compare_zero_iff_eq "ab" "ab" (by decide)

/-- C7: the summary document and its two grouping entry types consist of
exactly the listed fields: every value is determined by, and constructible
from, precisely those fields. -/
theorem summary_document_shape :
    (∀ s : SitemapSummary,
      s = ⟨s.schema_version, s.by_intent_category, s.by_action_object, s.total_urls,
           s.coverage_strict_percentage, s.coverage_any_percentage,
           s.directory_tree⟩) ∧
    (∀ g : IntentGroup, g = ⟨g.intent_category, g.url_count, g.sample_urls⟩) ∧
    (∀ g : ActionObjectGroup, g = ⟨g.action, g.object, g.url_count, g.sample_urls⟩) :=
  ⟨fun _ => rfl, fun _ => rfl, fun _ => rfl⟩

/-! Length of the recursive record collection, for C8. -/

mutual

theorem getAllRecords_length_eq : ∀ n : DirectoryNode, treeInv n = true →
    (getAllRecords n).length = n.count
  | .mk nm p c cs rs, h => by
    simp only [treeInv, Bool.and_eq_true, beq_iff_eq] at h
    simp only [getAllRecords, List.length_append, DirectoryNode.count_mk]
    rw [getAllRecordsList_length_eq cs h.2, h.1]

theorem getAllRecordsList_length_eq : ∀ l : List DirectoryNode,
    treeInvAll l = true → (getAllRecordsList l).length = sumCounts l
  | [], _ => by simp [getAllRecordsList, sumCounts]
  | n :: t, h => by
    simp only [treeInvAll, Bool.and_eq_true] at h
    simp only [getAllRecordsList, List.length_append, sumCounts, List.map_cons,
      List.sum_cons]
    rw [getAllRecords_length_eq n h.1, getAllRecordsList_length_eq t h.2]
    rfl

end

theorem getAllRecordsList_eq_flatten (l : List DirectoryNode) :
    getAllRecordsList l = (l.map getAllRecords).flatten := by
  induction l with
  | nil => rfl
  | cons n t ih => simp [getAllRecordsList, ih]

/-- C8: `getAllRecords` returns the records of the node followed by the
records of each child in child order, recursively; for every tree
satisfying the count invariant its length is the count of the node; and
the New Arrivals stat counts the `is_new` records over the entire tree. -/
theorem getAllRecords_spec (n : DirectoryNode) :
    getAllRecords n = n.records ++ (n.children.map getAllRecords).flatten ∧
    (treeInv n = true → (getAllRecords n).length = n.count) ∧
    newUrlCount n = ((getAllRecords n).filter fun r => r.is_new).length := by
  refine ⟨?_, getAllRecords_length_eq n, rfl⟩
  cases n with
  | mk nm p c cs rs => simp [getAllRecords, getAllRecordsList_eq_flatten]

/-- Witness for C8 at a concrete two-node tree satisfying the invariant. -/
theorem getAllRecords_spec_witness :
    (getAllRecords (DirectoryNode.mk "root" "/" 2
      [DirectoryNode.mk "a" "/a" 1 [] [sampleRec "u2" "y"]]
      [sampleRec "u1" "x"])).length = 2 :=
  (getAllRecords_spec (DirectoryNode.mk "root" "/" 2
    [DirectoryNode.mk "a" "/a" 1 [] [sampleRec "u2" "y"]]
    [sampleRec "u1" "x"])).2.1 (by decide)

/-! Navigation, for C9. -/

theorem currentNodeAux_resolve (root : DirectoryNode) :
    ∀ (path : List String) (cur : DirectoryNode),
      currentNodeAux root cur path = (resolvePath cur path).getD root := by
  intro path
  induction path with
  | nil => intro cur; rfl
  | cons s rest ih =>
    intro cur
    simp only [currentNodeAux, resolvePath]
    cases cur.children.find? (fun c => c.name == s) with
    | none => rfl
    | some child => exact ih child

/-- C9: the empty navigation path yields the virtual root; when every
successive segment matches a child name (so the reference descent
`resolvePath` succeeds), `currentNode` yields that descendant; and when
any segment fails to match, `currentNode` yields the entire virtual root,
not the deepest matched ancestor. -/
theorem currentNode_spec (root : DirectoryNode) (path : List String) :
    currentNode root [] = root ∧
    (∀ d, resolvePath root path = some d → currentNode root path = d) ∧
    (resolvePath root path = none → currentNode root path = root) := by
  refine ⟨rfl, ?_, ?_⟩
  · intro d hd
    rw [currentNode, currentNodeAux_resolve, hd]
    rfl
  · intro h
    rw [currentNode, currentNodeAux_resolve, h]
    rfl

/-- Witness for C9 on a concrete tree: a matching one-segment path yields
the child, and a mismatched path yields the whole root again. -/
theorem currentNode_spec_witness :
    currentNode (DirectoryNode.mk "root" "/" 1
        [DirectoryNode.mk "a" "/a" 1 [] [sampleRec "u1" "x"]] [])
      ["a"] = DirectoryNode.mk "a" "/a" 1 [] [sampleRec "u1" "x"] ∧
    currentNode (DirectoryNode.mk "root" "/" 1
        [DirectoryNode.mk "a" "/a" 1 [] [sampleRec "u1" "x"]] [])
      ["zzz"] = DirectoryNode.mk "root" "/" 1
        [DirectoryNode.mk "a" "/a" 1 [] [sampleRec "u1" "x"]] [] :=
  ⟨(currentNode_spec (DirectoryNode.mk "root" "/" 1
      [DirectoryNode.mk "a" "/a" 1 [] [sampleRec "u1" "x"]] []) ["a"]).2.1
    (DirectoryNode.mk "a" "/a" 1 [] [sampleRec "u1" "x"]) (by decide),
   (currentNode_spec (DirectoryNode.mk "root" "/" 1
      [DirectoryNode.mk "a" "/a" 1 [] [sampleRec "u1" "x"]] []) ["zzz"]).2.2
    (by decide)⟩

/-! Record filtering, for C10. -/

/-- C10: with `hideCommon = false` and an empty search query the filter is
the identity (same records, same order); with the default
`hideCommon = true` and an empty query it keeps exactly the records whose
path is not noise; and under `hideCommon = true` any record whose
lowercased path contains a common-page pattern is dropped for every
query. -/
theorem filteredRecords_spec (records : List IntentRecord) :
    filteredRecords records false "" = records ∧
    filteredRecords records true "" = records.filter (fun r => !(isNoise r.path)) ∧
    (∀ (q : String) (r : IntentRecord), isNoise r.path = true →
      r ∉ filteredRecords records true q) := by
  refine ⟨?_, ?_, ?_⟩
  · simp [filteredRecords]
  · refine List.filter_congr ?_
    intro r _
    by_cases hn : isNoise r.path <;> simp [hn]
  · intro q r hn hr
    rw [filteredRecords, List.mem_filter] at hr
    simp [hn] at hr

/-- Witness for C10 at a concrete input: a record with path `/login` is
dropped when `hideCommon` is on. -/
theorem filteredRecords_spec_witness :
    sampleRec "login" "x" ∉
      filteredRecords [sampleRec "login" "x"] true "" :=
  (filteredRecords_spec [sampleRec "login" "x"]).2.2 "" (sampleRec "login" "x")
    (by decide)

end SitemapTracker
